import Mathlib

/-!
Verification of the late safepoint placement pass
(lib/Transforms/Scalar/SafepointPlacementPass.cpp).

This file gives a shallow embedding of the data model and the operations of
the pass and proves, or refutes, the behavioural claims made by its
specification.  Every definition is translated from the C++ source;
definitions provided by the surrounding LLVM infrastructure (and therefore
absent from the source tree) carry a doc comment starting with
"Modelled from the spec:".
-/

namespace SafepointPlacement

/-! ## Shared IR value model

A value has a unique identity, a type and a coarse kind.  GC pointers are
pointers in address space 1.  This mirrors the IR universe the pass sees:
values are referenced by unique identity and carry a type.
-/

/-- IR types, reduced to what the pass inspects: pointer types carry an
address space; the other kinds are opaque to the pass. -/
inductive Ty where
  | ptr (addrspace : Nat)
  | int (bits : Nat)
  | float
  | void
  | other
deriving DecidableEq, Repr

/-- Modelled from the spec: the helper `isGCPointerType` lives in an LLVM
header outside the source tree; per the spec, a GC pointer is a pointer in
address space 1. -/
def isGCPointerType : Ty → Bool
  | Ty.ptr 1 => true
  | _ => false

/-- Coarse classification of an SSA value, as the pass distinguishes them:
instruction results, function arguments, the null constant, undef values,
other constants and globals. -/
inductive ValKind where
  | instruction
  | argument
  | nullConst
  | undefConst
  | otherConst
  | global
deriving DecidableEq, Repr

/-- An SSA value: unique identity plus type and kind. -/
structure Value where
  id : Nat
  ty : Ty
  kind : ValKind
deriving DecidableEq, Repr

/-- Source `isNull` from the source: a constant which is a null value. -/
def isNull (V : Value) : Bool := V.kind = ValKind.nullConst

/-- The `isa UndefValue` test used by the liveness transfer function. -/
def isUndef (V : Value) : Bool := V.kind = ValKind.undefConst

/-! ## The base-pointer lattice (`PhiState`, `MeetPhiStates::pureMeet`)

The source represents a lattice element as a status tag plus a base value
that is non-null exactly when the status is `Base`; the inductive type below
carries the same information.
-/

/-- The three-valued lattice over which base pointers of merge instructions
are resolved: `Unknown`, `Base b` (a known base value `b`), `Conflict`. -/
inductive PhiState where
  | unknown
  | base (b : Value)
  | conflict
deriving DecidableEq, Repr

/-- Source `MeetPhiStates::pureMeet`, translated case for case from the source
switch on `stateA.getStatus()`. -/
def pureMeet : PhiState → PhiState → PhiState
  | PhiState.unknown, stateB => stateB
  | PhiState.base b, stateB =>
    match stateB with
    | PhiState.unknown => PhiState.base b
    | PhiState.base b2 => if b = b2 then PhiState.base b else PhiState.conflict
    | PhiState.conflict => PhiState.conflict
  | PhiState.conflict, _ => PhiState.conflict

/-- C1: the base-pointer lattice meet satisfies the four stated rules:
`Unknown ⊓ x = x`, `Conflict ⊓ x = Conflict`, `Base b ⊓ Base b = Base b`,
and `Base b₁ ⊓ Base b₂ = Conflict` whenever `b₁ ≠ b₂`. -/
theorem pureMeet_lattice_rules (x : PhiState) (b b1 b2 : Value) (hne : b1 ≠ b2) :
    pureMeet PhiState.unknown x = x ∧
    pureMeet PhiState.conflict x = PhiState.conflict ∧
    pureMeet (PhiState.base b) (PhiState.base b) = PhiState.base b ∧
    pureMeet (PhiState.base b1) (PhiState.base b2) = PhiState.conflict := by
  refine ⟨rfl, rfl, ?_, ?_⟩
  · simp [pureMeet]
  · simp [pureMeet, hne]

/-- Witness for C1 at concrete lattice elements and concrete distinct bases. -/
theorem pureMeet_lattice_rules_witness :
    pureMeet PhiState.unknown PhiState.conflict = PhiState.conflict ∧
    pureMeet PhiState.conflict PhiState.conflict = PhiState.conflict ∧
    pureMeet (PhiState.base ⟨0, Ty.ptr 1, ValKind.argument⟩)
      (PhiState.base ⟨0, Ty.ptr 1, ValKind.argument⟩) =
      PhiState.base ⟨0, Ty.ptr 1, ValKind.argument⟩ ∧
    pureMeet (PhiState.base ⟨1, Ty.ptr 1, ValKind.argument⟩)
      (PhiState.base ⟨2, Ty.ptr 1, ValKind.argument⟩) = PhiState.conflict :=
  pureMeet_lattice_rules PhiState.conflict
    ⟨0, Ty.ptr 1, ValKind.argument⟩
    ⟨1, Ty.ptr 1, ValKind.argument⟩
    ⟨2, Ty.ptr 1, ValKind.argument⟩
    (by decide)

/-- C2: the meet is commutative (the property `meetWith` asserts at every
step) and idempotent. -/
theorem pureMeet_comm_idem (a b : PhiState) :
    pureMeet a b = pureMeet b a ∧ pureMeet a a = a := by
  constructor
  · cases a <;> cases b <;> simp [pureMeet]
    case base.base b1 b2 =>
      by_cases h : b1 = b2
      · simp [h]
      · simp [h, Ne.symm h]
  · cases a <;> simp [pureMeet]

/-! ## The deduplication helper (`unique_unsorted`)

The source keeps a `seen` set and pushes each element of the input vector
onto the output exactly when inserting it into `seen` for the first time.
-/

/-- The loop body of `unique_unsorted`: walk the remaining input, keeping the
set of already-seen elements, and emit each not-yet-seen element. -/
def uniqueAux {T : Type} [DecidableEq T] (seen : List T) : List T → List T
  | [] => []
  | v :: rest => if v ∈ seen then uniqueAux seen rest else v :: uniqueAux (v :: seen) rest

/-- Source `unique_unsorted` from the source: deduplicate without sorting. -/
def unique_unsorted {T : Type} [DecidableEq T] (vec : List T) : List T :=
  uniqueAux [] vec

theorem mem_uniqueAux {T : Type} [DecidableEq T] (x : T) :
    ∀ (l seen : List T), x ∈ uniqueAux seen l ↔ x ∈ l ∧ x ∉ seen := by
  intro l
  induction l with
  | nil => intro seen; simp [uniqueAux]
  | cons v rest ih =>
    intro seen
    by_cases hv : v ∈ seen
    · rw [uniqueAux, if_pos hv, ih]
      constructor
      · rintro ⟨h1, h2⟩; exact ⟨List.mem_cons_of_mem _ h1, h2⟩
      · rintro ⟨h1, h2⟩
        rcases List.mem_cons.mp h1 with h | h
        · exact absurd (h ▸ hv) h2
        · exact ⟨h, h2⟩
    · rw [uniqueAux, if_neg hv]
      constructor
      · intro hmem
        rcases List.mem_cons.mp hmem with h | h
        · subst h; exact ⟨List.mem_cons_self x rest, hv⟩
        · obtain ⟨h1, h2⟩ := (ih (v :: seen)).mp h
          exact ⟨List.mem_cons_of_mem _ h1, fun hm => h2 (List.mem_cons_of_mem _ hm)⟩
      · rintro ⟨h1, h2⟩
        rcases List.mem_cons.mp h1 with h | h
        · subst h; exact List.mem_cons_self x _
        · by_cases hxv : x = v
          · subst hxv; exact List.mem_cons_self x _
          · exact List.mem_cons_of_mem _
              ((ih (v :: seen)).mpr ⟨h, fun hm => (List.mem_cons.mp hm).elim hxv h2⟩)

theorem nodup_uniqueAux {T : Type} [DecidableEq T] :
    ∀ (l seen : List T), (uniqueAux seen l).Nodup := by
  intro l
  induction l with
  | nil => intro seen; simp [uniqueAux]
  | cons v rest ih =>
    intro seen
    by_cases hv : v ∈ seen
    · simpa [uniqueAux, if_pos hv] using ih seen
    · simp only [uniqueAux, if_neg hv]
      refine List.nodup_cons.mpr ⟨?_, ih (v :: seen)⟩
      intro hmem
      exact ((mem_uniqueAux v rest (v :: seen)).mp hmem).2 (List.mem_cons_self v seen)

theorem indexOf_uniqueAux_lt {T : Type} [DecidableEq T] (x y : T) :
    ∀ (l seen : List T), x ∈ l → x ∉ seen → y ∈ l → y ∉ seen →
      ((uniqueAux seen l).indexOf x < (uniqueAux seen l).indexOf y ↔
        l.indexOf x < l.indexOf y) := by
  intro l
  induction l with
  | nil => intro seen hx; simp at hx
  | cons v rest ih =>
    intro seen hx hxs hy hys
    by_cases hv : v ∈ seen
    · have hxv : x ≠ v := fun h => hxs (h ▸ hv)
      have hyv : y ≠ v := fun h => hys (h ▸ hv)
      have hx' : x ∈ rest := by
        rcases List.mem_cons.mp hx with h | h
        · exact absurd h hxv
        · exact h
      have hy' : y ∈ rest := by
        rcases List.mem_cons.mp hy with h | h
        · exact absurd h hyv
        · exact h
      rw [uniqueAux, if_pos hv, List.indexOf_cons_ne _ (Ne.symm hxv),
        List.indexOf_cons_ne _ (Ne.symm hyv), ih seen hx' hxs hy' hys]
      omega
    · rw [uniqueAux, if_neg hv]
      by_cases hxv : x = v
      · subst hxv
        by_cases hyv : y = x
        · subst hyv; simp
        · have hy' : y ∈ rest := by
            rcases List.mem_cons.mp hy with h | h
            · exact absurd h hyv
            · exact h
          rw [List.indexOf_cons_self, List.indexOf_cons_self,
            List.indexOf_cons_ne _ (Ne.symm hyv), List.indexOf_cons_ne _ (Ne.symm hyv)]
          simp
      · have hx' : x ∈ rest := by
          rcases List.mem_cons.mp hx with h | h
          · exact absurd h hxv
          · exact h
        by_cases hyv : y = v
        · subst hyv
          rw [List.indexOf_cons_self, List.indexOf_cons_self,
            List.indexOf_cons_ne _ (Ne.symm hxv), List.indexOf_cons_ne _ (Ne.symm hxv)]
          simp
        · have hy' : y ∈ rest := by
            rcases List.mem_cons.mp hy with h | h
            · exact absurd h hyv
            · exact h
          have hxs' : x ∉ v :: seen := by
            intro h
            rcases List.mem_cons.mp h with h | h
            · exact hxv h
            · exact hxs h
          have hys' : y ∉ v :: seen := by
            intro h
            rcases List.mem_cons.mp h with h | h
            · exact hyv h
            · exact hys h
          rw [List.indexOf_cons_ne _ (Ne.symm hxv), List.indexOf_cons_ne _ (Ne.symm hyv),
            List.indexOf_cons_ne _ (Ne.symm hxv), List.indexOf_cons_ne _ (Ne.symm hyv),
            Nat.succ_lt_succ_iff, Nat.succ_lt_succ_iff]
          exact ih (v :: seen) hx' hxs' hy' hys'

/-- C10: `unique_unsorted` removes duplicates while preserving the order of
first occurrences: the output holds exactly the distinct elements of the
input, each exactly once, and two retained elements are ordered by the
positions of their first occurrences in the input. -/
theorem unique_unsorted_spec {T : Type} [DecidableEq T] (l : List T) (x y : T)
    (hx : x ∈ l) (hy : y ∈ l) :
    (∀ z, z ∈ unique_unsorted l ↔ z ∈ l) ∧
    (unique_unsorted l).count x = 1 ∧
    ((unique_unsorted l).indexOf x < (unique_unsorted l).indexOf y ↔
      l.indexOf x < l.indexOf y) := by
  refine ⟨?_, ?_, ?_⟩
  · intro z
    rw [unique_unsorted, mem_uniqueAux]
    simp
  · have hmem : x ∈ unique_unsorted l := by
      rw [unique_unsorted, mem_uniqueAux]; exact ⟨hx, by simp⟩
    exact List.count_eq_one_of_mem (nodup_uniqueAux l []) hmem
  · exact indexOf_uniqueAux_lt x y l [] hx (by simp) hy (by simp)

/-- Witness for C10 on a concrete vector with duplicates. -/
theorem unique_unsorted_spec_witness :
    ((3 : Nat) ∈ ([3, 5, 3, 7] : List Nat)) ∧ ((7 : Nat) ∈ ([3, 5, 3, 7] : List Nat)) ∧
    ((∀ z, z ∈ unique_unsorted ([3, 5, 3, 7] : List Nat) ↔ z ∈ ([3, 5, 3, 7] : List Nat)) ∧
      (unique_unsorted ([3, 5, 3, 7] : List Nat)).count 3 = 1 ∧
      ((unique_unsorted ([3, 5, 3, 7] : List Nat)).indexOf 3 <
          (unique_unsorted ([3, 5, 3, 7] : List Nat)).indexOf 7 ↔
        ([3, 5, 3, 7] : List Nat).indexOf 3 < ([3, 5, 3, 7] : List Nat).indexOf 7)) :=
  ⟨by decide, by decide,
    unique_unsorted_spec ([3, 5, 3, 7] : List Nat) 3 7 (by decide) (by decide)⟩

/-! ## Pass-level model: call sites, blocks, CFG, options

This is the granularity at which the pollsite selectors
(`PlaceBackedgeSafepointsImpl::runOnLoop`, `findLocationForEntrySafepoint`,
`findCallSafepoints`) and the driver `PlaceSafepoints::runOnFunction`
operate.
-/

/-- The intrinsic identities the pass distinguishes; every other intrinsic
is `otherIntr`. -/
inductive Intr where
  | memset
  | memmove
  | memcpy
  | statepoint
  | gcRelocate
  | gcResultInt
  | gcResultFloat
  | gcResultPtr
  | otherIntr (n : Nat)
deriving DecidableEq, Repr

/-- A direct callee: its name, its function attributes, and its intrinsic
identity when it is an intrinsic. -/
structure CalleeInfo where
  name : String
  attrs : List (String × String)
  intr : Option Intr
deriving DecidableEq, Repr

/-- A call site as `needsStatepoint` inspects it: whether the instruction is
an invoke, whether the called value is inline assembly, and the direct
callee if there is one (`none` models an indirect call or inline asm). -/
structure CSite where
  isInvoke : Bool
  inlineAsm : Bool
  callee : Option CalleeInfo
deriving DecidableEq, Repr

/-- Instructions at selector granularity: call-like instructions (calls and
invokes) and everything else, each with a unique identity. -/
inductive SInst where
  | call (id : Nat) (cs : CSite)
  | other (id : Nat)
deriving DecidableEq, Repr

/-- The identity of an instruction. -/
def instId : SInst → Nat
  | SInst.call i _ => i
  | SInst.other i => i

/-- A basic block: identity, ordered instruction list (the last instruction
is the terminator), successor block identities. -/
structure BBlk where
  id : Nat
  insts : List SInst
  succs : List Nat
deriving DecidableEq, Repr

/-- A control-flow graph: the entry block identity and the block list. -/
structure CFG where
  entry : Nat
  blocks : List BBlk
deriving DecidableEq, Repr

/-- A function as the pass sees it: name, string attributes, whether it is a
bodyless declaration, and its CFG. -/
structure Func where
  name : String
  attrs : List (String × String)
  isDecl : Bool
  cfg : CFG
deriving DecidableEq, Repr

/-- The configuration flags read by the modelled code paths. -/
structure Options where
  allFunctions : Bool
  allBackedges : Bool
  noEntry : Bool
  noBackedge : Bool
  noCall : Bool
deriving DecidableEq, Repr

/-- Source `Function::getFnAttribute(...).getValueAsString()`: the value of a string
attribute, or the empty string when the attribute is absent. -/
def getAttrVal (attrs : List (String × String)) (key : String) : String :=
  match attrs.find? (fun p => p.1 == key) with
  | some p => p.2
  | none => ""

/-- The common opt-in gate of the three selectors: run when `AllFunctions`
is set or the per-function attribute is the string true, but never for the
function named gc.safepoint_poll. -/
def shouldRunWithAttr (opts : Options) (fname : String)
    (attrs : List (String × String)) (attrName : String) : Bool :=
  let s := opts.allFunctions || (getAttrVal attrs attrName == "true")
  if s && (fname == "gc.safepoint_poll") then false else s

/-- Look a block up by identity (`find?` mirrors pointer identity lookup). -/
def findBlock (g : CFG) (i : Nat) : Option BBlk :=
  g.blocks.find? (fun b => b.id == i)

/-- The predecessor block identities of block `i`. -/
def predsOf (g : CFG) (i : Nat) : List Nat :=
  (g.blocks.filter (fun b => i ∈ b.succs)).map (fun b => b.id)

/-- Source `getTerminator`: the last instruction of a block. -/
def blockTermId (g : CFG) (i : Nat) : Option Nat :=
  (findBlock g i).bind (fun b => b.insts.getLast?.map instId)

/-! ## Call-site selection (`isGCLeafFunction`, `needsStatepoint`,
`findCallSafepoints`) -/

/-- The intrinsics of the explicit allowlist in `isGCLeafFunction` which do
need safepoints (the switch cases that fall through). -/
def intrMayNeedSafepoint : Intr → Bool
  | Intr.memset => true
  | Intr.memmove => true
  | Intr.memcpy => true
  | _ => false

/-- The gc-leaf-function attribute test on the direct callee. -/
def hasLeafAttr (cs : CSite) : Bool :=
  match cs.callee with
  | some c => getAttrVal c.attrs "gc-leaf-function" == "true"
  | none => false

/-- Source `SafepointPlacementImpl::isGCLeafFunction`: an intrinsic call (only a
plain call can be an `IntrinsicInst`) outside the memset/memmove/memcpy
allowlist is a leaf, otherwise the gc-leaf-function attribute of the callee
decides. -/
def isGCLeafFunction (cs : CSite) : Bool :=
  match (if cs.isInvoke then none else cs.callee.bind (fun c => c.intr)) with
  | some i => if intrMayNeedSafepoint i then hasLeafAttr cs else true
  | none => hasLeafAttr cs

/-- Modelled from the spec: `isStatepoint` lives in an LLVM header outside
the source tree; it recognises a call whose callee is the statepoint
intrinsic. -/
def isStatepointCS (cs : CSite) : Bool :=
  cs.callee.bind (fun c => c.intr) == some Intr.statepoint

/-- Modelled from the spec: `isGCRelocate` recognises a call whose callee is
the gc_relocate intrinsic. -/
def isGCRelocateCS (cs : CSite) : Bool :=
  cs.callee.bind (fun c => c.intr) == some Intr.gcRelocate

/-- Modelled from the spec: `isGCResult` recognises a call whose callee is
one of the gc_result projection intrinsics. -/
def isGCResultCS (cs : CSite) : Bool :=
  match cs.callee.bind (fun c => c.intr) with
  | some Intr.gcResultInt => true
  | some Intr.gcResultFloat => true
  | some Intr.gcResultPtr => true
  | _ => false

/-- Source `SafepointPlacementImpl::needsStatepoint`, translated clause for
clause. -/
def needsStatepoint (cs : CSite) : Bool :=
  if isGCLeafFunction cs then false
  else if !cs.isInvoke && cs.inlineAsm then false
  else if isStatepointCS cs || isGCRelocateCS cs || isGCResultCS cs then false
  else true

/-- Source `findCallSafepoints`: gate on the call-safepoint attribute, then collect
every call or invoke instruction that `needsStatepoint` accepts. -/
def findCallSafepoints (opts : Options) (f : Func) : List SInst :=
  if !(shouldRunWithAttr opts f.name f.attrs "gc-add-call-safepoints") then []
  else (f.cfg.blocks.flatMap (fun b => b.insts)).filter (fun i =>
    match i with
    | SInst.call _ cs => needsStatepoint cs
    | SInst.other _ => false)

/-! ## Backedge poll selection (`mustBeFiniteCountedLoop`, `runOnLoop`) -/

/-- A natural loop as the backedge selector sees it: the header block, the
set of contained blocks, and the loop latch when there is a single one
(`getLoopLatch`). -/
structure LoopM where
  header : Nat
  blockIds : List Nat
  latch : Option Nat
deriving DecidableEq, Repr

/-- Source `mustBeFiniteCountedLoop`: the trip count starts at zero, is replaced by
the scalar-evolution bound through the latch when a latch exists, and the
loop counts as finite exactly when the resulting count is positive.  `SE`
models `ScalarEvolution::getSmallConstantTripCount`, an external analysis. -/
def mustBeFiniteCountedLoop (SE : LoopM → Nat → Nat) (L : LoopM) : Bool :=
  match L.latch with
  | some latchBlock => decide (0 < SE L latchBlock)
  | none => decide (0 < 0)

/-- Source `PlaceBackedgeSafepointsImpl::runOnLoop`, restricted to its output: the
list of backedge terminators recorded in `PollLocations`.  Every in-loop
predecessor of the header is a backedge; when `AllBackedges` is off and the
loop is provably finite the backedge is skipped. -/
def runOnLoopPolls (opts : Options) (SE : LoopM → Nat → Nat) (f : Func)
    (L : LoopM) : List Nat :=
  if !(shouldRunWithAttr opts f.name f.attrs "gc-add-backedge-safepoints") then []
  else ((predsOf f.cfg L.header).filter (fun p => p ∈ L.blockIds)).filterMap (fun p =>
    if !opts.allBackedges && mustBeFiniteCountedLoop SE L then none
    else blockTermId f.cfg p)

/-- C4: when `AllBackedges` is off and the trip-count analysis reports a
positive constant trip count through the loop latch, `runOnLoop` records no
poll location for any backedge of that loop. -/
theorem runOnLoop_skips_finite_loops (opts : Options) (SE : LoopM → Nat → Nat)
    (f : Func) (L : LoopM) (lb : Nat)
    (hab : opts.allBackedges = false)
    (hlatch : L.latch = some lb)
    (hpos : 0 < SE L lb) :
    runOnLoopPolls opts SE f L = [] := by
  unfold runOnLoopPolls
  by_cases hrun : shouldRunWithAttr opts f.name f.attrs "gc-add-backedge-safepoints"
  · rw [if_neg (by simp [hrun])]
    rw [List.filterMap_eq_nil_iff]
    intro p _
    simp [hab, mustBeFiniteCountedLoop, hlatch, hpos]
  · rw [if_pos (by simp [Bool.not_eq_true] at hrun ⊢; exact hrun)]

/-- Witness for C4: a concrete one-block self loop whose trip count is 10. -/
theorem runOnLoop_skips_finite_loops_witness :
    runOnLoopPolls
      ⟨true, false, false, false, false⟩
      (fun _ _ => 10)
      ⟨"f", [], false, ⟨0, [⟨0, [SInst.other 0], [1]⟩, ⟨1, [SInst.other 1], [1, 2]⟩, ⟨2, [SInst.other 2], []⟩]⟩⟩
      ⟨1, [1], some 1⟩ = [] :=
  runOnLoop_skips_finite_loops _ _ _ _ 1 rfl rfl (by decide)

/-! ### C6: what call-site selection skips (corrected) -/

/-- Counterexample to C6 as stated: an invoke of a plain external function
is not skipped: `needsStatepoint` accepts it and `findCallSafepoints`
selects it. -/
theorem findCallSafepoints_selects_invoke :
    needsStatepoint ⟨true, false, some ⟨"g", [], none⟩⟩ = true ∧
    SInst.call 5 ⟨true, false, some ⟨"g", [], none⟩⟩ ∈
      findCallSafepoints
        ⟨true, false, false, false, false⟩
        ⟨"f", [], false, ⟨0, [⟨0, [SInst.call 5 ⟨true, false, some ⟨"g", [], none⟩⟩], []⟩]⟩⟩ := by
  constructor
  · rfl
  · simp [findCallSafepoints, shouldRunWithAttr, needsStatepoint, isGCLeafFunction,
      hasLeafAttr, getAttrVal, isStatepointCS, isGCRelocateCS, isGCResultCS]

/-- C6 (amended): selection skips every inline-assembly call, every
statepoint/gc_relocate/gc_result call, every non-invoke intrinsic call
outside the memset/memcpy/memmove allowlist, and every callee annotated
gc-leaf-function; allowlisted intrinsics without the leaf annotation are
selected; everything selected is a call-like instruction accepted by
`needsStatepoint`, so no statepoint, result, or relocate is selected.
(Invokes, contrary to the original claim, are scanned and selectable.) -/
theorem needsStatepoint_skip_rules (opts : Options) (f : Func) (s : SInst) :
    (∀ cs : CSite, cs.isInvoke = false → cs.inlineAsm = true →
      needsStatepoint cs = false) ∧
    (∀ cs : CSite, isStatepointCS cs || isGCRelocateCS cs || isGCResultCS cs →
      needsStatepoint cs = false) ∧
    (∀ (cs : CSite) (c : CalleeInfo) (i : Intr), cs.isInvoke = false →
      cs.callee = some c → c.intr = some i → intrMayNeedSafepoint i = false →
      needsStatepoint cs = false) ∧
    (∀ cs : CSite, hasLeafAttr cs = true → needsStatepoint cs = false) ∧
    (∀ (cs : CSite) (c : CalleeInfo) (i : Intr), cs.isInvoke = false →
      cs.inlineAsm = false → cs.callee = some c → c.intr = some i →
      intrMayNeedSafepoint i = true → hasLeafAttr cs = false →
      needsStatepoint cs = true) ∧
    (s ∈ findCallSafepoints opts f →
      ∃ id cs, s = SInst.call id cs ∧ needsStatepoint cs = true ∧
        isStatepointCS cs = false ∧ isGCRelocateCS cs = false ∧
        isGCResultCS cs = false) := by
  refine ⟨?_, ?_, ?_, ?_, ?_, ?_⟩
  · intro cs hinv hasm
    simp [needsStatepoint, hinv, hasm]
  · intro cs hsp
    unfold needsStatepoint
    by_cases hleaf : isGCLeafFunction cs
    · rw [if_pos hleaf]
    · rw [if_neg hleaf]
      by_cases hasm : (!cs.isInvoke && cs.inlineAsm : Bool)
      · rw [if_pos hasm]
      · rw [if_neg hasm, if_pos hsp]
  · intro cs c i hinv hc hi hmay
    have hleaf : isGCLeafFunction cs = true := by
      simp [isGCLeafFunction, hinv, hc, hi, hmay]
    simp [needsStatepoint, hleaf]
  · intro cs hattr
    have hleaf : isGCLeafFunction cs = true := by
      unfold isGCLeafFunction
      cases hmatch : (if cs.isInvoke then none else cs.callee.bind (fun c => c.intr)) with
      | none => simpa using hattr
      | some i =>
        by_cases hmay : intrMayNeedSafepoint i
        · simp [hmay, hattr]
        · simp [hmay]
    simp [needsStatepoint, hleaf]
  · intro cs c i hinv hasm hc hi hmay hattr
    have hleaf : isGCLeafFunction cs = false := by
      simp [isGCLeafFunction, hinv, hc, hi, hmay, hattr]
    have hsp : isStatepointCS cs = false := by
      simp only [isStatepointCS, hc, Option.bind_some]
      cases i <;> simp_all [intrMayNeedSafepoint, hi]
    have hrel : isGCRelocateCS cs = false := by
      simp only [isGCRelocateCS, hc, Option.bind_some]
      cases i <;> simp_all [intrMayNeedSafepoint, hi]
    have hres : isGCResultCS cs = false := by
      simp only [isGCResultCS, hc, Option.bind_some]
      cases i <;> simp_all [intrMayNeedSafepoint, hi]
    simp [needsStatepoint, hleaf, hinv, hasm, hsp, hrel, hres]
  · intro hmem
    unfold findCallSafepoints at hmem
    by_cases hrun : shouldRunWithAttr opts f.name f.attrs "gc-add-call-safepoints"
    · rw [if_neg (by simp [hrun])] at hmem
      obtain ⟨-, hkeep⟩ := List.mem_filter.mp hmem
      cases s with
      | call id cs =>
        refine ⟨id, cs, rfl, by simpa using hkeep, ?_, ?_, ?_⟩
        · by_cases h : isStatepointCS cs
          · exfalso
            have : needsStatepoint cs = false := by simp [needsStatepoint, h]
            simp [this] at hkeep
          · simpa using h
        · by_cases h : isGCRelocateCS cs
          · exfalso
            have : needsStatepoint cs = false := by
              unfold needsStatepoint
              by_cases hleaf : isGCLeafFunction cs
              · simp [hleaf]
              · simp [hleaf, h]
            simp [this] at hkeep
          · simpa using h
        · by_cases h : isGCResultCS cs
          · exfalso
            have : needsStatepoint cs = false := by
              unfold needsStatepoint
              by_cases hleaf : isGCLeafFunction cs
              · simp [hleaf]
              · simp [hleaf, h]
            simp [this] at hkeep
          · simpa using h
      | other id => simp at hkeep
    · rw [if_pos (by simp [Bool.not_eq_true] at hrun ⊢; exact hrun)] at hmem
      simp at hmem

/-- Witness for C6 (amended): exercises the skip rule for an inline-assembly
call site. -/
theorem needsStatepoint_skip_rules_witness :
    needsStatepoint ⟨false, true, none⟩ = false :=
  (needsStatepoint_skip_rules ⟨false, false, false, false, false⟩
    ⟨"f", [], false, ⟨0, []⟩⟩ (SInst.other 0)).1 ⟨false, true, none⟩ rfl rfl

/-! ## Entry poll placement (`findLocationForEntrySafepoint`)

The source walks forward from the entry block while the current block has a
unique successor and that successor has a unique predecessor; the poll
location is the terminator of the block where the walk stops.  The C++ loop
is `while (true)`; on valid IR (the entry block has no predecessors) it
terminates, which the fuel argument below makes explicit: a fuel of one per
block of the function is enough.
-/

/-- Source `BasicBlock::getUniqueSuccessor`: the successor if all successor edges
lead to the same block, otherwise none. -/
def getUniqueSuccessor (b : BBlk) : Option Nat :=
  match b.succs with
  | [] => none
  | s :: rest => if rest.all (fun x => x == s) then some s else none

/-- Source `BasicBlock::getUniquePredecessor`: the predecessor if all predecessor
edges come from the same block, otherwise none. -/
def getUniquePredecessor (g : CFG) (i : Nat) : Option Nat :=
  match predsOf g i with
  | [] => none
  | p :: rest => if rest.all (fun x => x == p) then some p else none

/-- The body of the walk loop in `findLocationForEntrySafepoint`: `none`
when one of the two break conditions fires (no unique successor, or the
successor is a join), otherwise the next block. -/
def entryWalkStep (g : CFG) (cur : Nat) : Option Nat :=
  match findBlock g cur with
  | none => none
  | some b =>
    match getUniqueSuccessor b with
    | none => none
    | some nxt =>
      match getUniquePredecessor g nxt with
      | none => none
      | some _ => some nxt

/-- The forward walk of `findLocationForEntrySafepoint`, with explicit fuel
standing in for the unbounded C++ loop. -/
def entryWalk (g : CFG) : Nat → Nat → Nat
  | 0, cur => cur
  | fuel + 1, cur =>
    match entryWalkStep g cur with
    | none => cur
    | some nxt => entryWalk g fuel nxt

/-- Source `findLocationForEntrySafepoint`: gate on the entry-safepoint attribute,
walk from the entry block, and return the terminator of the block reached. -/
def findLocationForEntrySafepoint (opts : Options) (f : Func) : Option Nat :=
  if !(shouldRunWithAttr opts f.name f.attrs "gc-add-entry-safepoints") then none
  else blockTermId f.cfg (entryWalk f.cfg f.cfg.blocks.length f.cfg.entry)

/-- One legal move of the walk: the current block has a unique successor and
that successor has a unique predecessor. -/
def StepOk (g : CFG) (a c : Nat) : Prop :=
  ∃ b, findBlock g a = some b ∧ getUniqueSuccessor b = some c ∧
    getUniquePredecessor g c ≠ none

/-- The reflexive-transitive closure of `StepOk`. -/
inductive WalkReaches (g : CFG) : Nat → Nat → Prop where
  | refl (a : Nat) : WalkReaches g a a
  | tail {a b c : Nat} : WalkReaches g a b → StepOk g b c → WalkReaches g a c

/-- A block at which the walk stops: the first split or merge (no unique
successor, or the successor has several predecessors). -/
def WalkStuck (g : CFG) (r : Nat) : Prop := ∀ c, ¬ StepOk g r c

theorem findBlock_eq {g : CFG} {i : Nat} {b : BBlk} (h : findBlock g i = some b) :
    b ∈ g.blocks ∧ b.id = i := by
  unfold findBlock at h
  refine ⟨List.mem_of_find?_eq_some h, ?_⟩
  have := List.find?_some h
  simpa using this

theorem getUniqueSuccessor_mem {b : BBlk} {c : Nat} (h : getUniqueSuccessor b = some c) :
    c ∈ b.succs := by
  rcases hsucc : b.succs with _ | ⟨s, rest⟩
  · simp [getUniqueSuccessor, hsucc] at h
  · simp only [getUniqueSuccessor, hsucc] at h
    by_cases hall : rest.all (fun x => x == s)
    · rw [if_pos hall] at h
      have hs : s = c := Option.some_injective _ h
      rw [← hs]
      exact List.mem_cons_self s rest
    · rw [if_neg hall] at h
      exact absurd h (by simp)

theorem getUniquePredecessor_eq_of_mem {g : CFG} {i p q : Nat}
    (h : getUniquePredecessor g i = some p) (hq : q ∈ predsOf g i) : q = p := by
  rcases hps : predsOf g i with _ | ⟨p0, rest⟩
  · rw [hps] at hq; simp at hq
  · simp only [getUniquePredecessor, hps] at h
    by_cases hall : rest.all (fun x => x == p0)
    · rw [if_pos hall] at h
      have hp : p = p0 := (Option.some_injective _ h).symm
      rw [hps] at hq
      rcases List.mem_cons.mp hq with hq0 | hq0
      · omega
      · have := List.all_eq_true.mp hall q hq0
        simp at this
        omega
    · rw [if_neg hall] at h
      exact absurd h (by simp)

theorem stepOk_mem_preds {g : CFG} {a c : Nat} (h : StepOk g a c) : a ∈ predsOf g c := by
  obtain ⟨b, hfb, hsucc, -⟩ := h
  obtain ⟨hmem, hid⟩ := findBlock_eq hfb
  have hc := getUniqueSuccessor_mem hsucc
  unfold predsOf
  exact List.mem_map.mpr ⟨b, List.mem_filter.mpr ⟨hmem, by simpa using hc⟩, hid⟩

theorem stepOk_uniquePred {g : CFG} {a c : Nat} (h : StepOk g a c) :
    getUniquePredecessor g c = some a := by
  obtain ⟨b, hfb, hsucc, hne⟩ := h
  rcases hup : getUniquePredecessor g c with _ | p
  · exact absurd hup hne
  · have := getUniquePredecessor_eq_of_mem hup (stepOk_mem_preds ⟨b, hfb, hsucc, hne⟩)
    rw [this]

/-- The list of blocks the walk has visited, most recent first; the last
element is the entry block and consecutive elements are legal moves. -/
inductive RPath (g : CFG) : List Nat → Prop where
  | single : RPath g [g.entry]
  | step {c d : Nat} {p : List Nat} : RPath g (c :: p) → StepOk g c d → RPath g (d :: c :: p)

theorem rpath_reaches {g : CFG} {L : List Nat} (h : RPath g L) :
    ∀ {cur : Nat} {rest : List Nat}, L = cur :: rest → WalkReaches g g.entry cur := by
  induction h with
  | single =>
    intro cur rest hL
    injection hL with h1 h2
    subst h1
    exact WalkReaches.refl _
  | step hprev hstep ih =>
    intro cur rest hL
    injection hL with h1 h2
    subst h1
    exact WalkReaches.tail (ih rfl) hstep

theorem rpath_uniquePred_suffix {g : CFG} {L : List Nat} (h : RPath g L) :
    ∀ x ∈ L, x = g.entry ∨
      ∃ y L2, (x :: y :: L2) <:+ L ∧ getUniquePredecessor g x = some y := by
  induction h with
  | single =>
    intro x hx
    simp at hx
    exact Or.inl hx
  | step hprev hstep ih =>
    rename_i c d p
    intro x hx
    rcases List.mem_cons.mp hx with hx0 | hx0
    · subst hx0
      exact Or.inr ⟨c, p, List.suffix_refl _, stepOk_uniquePred hstep⟩
    · rcases ih x hx0 with h0 | ⟨y, L2, hsuf, hup⟩
      · exact Or.inl h0
      · exact Or.inr ⟨y, L2, hsuf.trans (List.suffix_cons d (c :: p)), hup⟩

theorem rpath_no_revisit {g : CFG} {cur nxt : Nat} {rest : List Nat}
    (hnp : predsOf g g.entry = [])
    (hpath : RPath g (cur :: rest)) (hnd : (cur :: rest).Nodup)
    (hstep : StepOk g cur nxt) : nxt ∉ cur :: rest := by
  intro hmem
  have hupn : getUniquePredecessor g nxt = some cur := stepOk_uniquePred hstep
  rcases rpath_uniquePred_suffix hpath nxt hmem with hent | ⟨y, L2, hsuf, hup⟩
  · have : cur ∈ predsOf g g.entry := hent ▸ stepOk_mem_preds hstep
    rw [hnp] at this
    simp at this
  · have hy : y = cur := by
      rw [hup] at hupn
      exact Option.some_injective _ hupn
    rw [hy] at hsuf
    obtain ⟨t, ht⟩ := hsuf
    have hcur_rest : cur ∉ rest := (List.nodup_cons.mp hnd).1
    rcases t with _ | ⟨a, t2⟩
    · rw [List.nil_append] at ht
      injection ht with h1 h2
      exact hcur_rest (h2 ▸ List.mem_cons_self cur L2)
    · rw [List.cons_append] at ht
      injection ht with h1 h2
      have : cur ∈ rest := by
        rw [← h2]
        exact List.mem_append_right _ (List.mem_cons_of_mem _ (List.mem_cons_self _ _))
      exact hcur_rest this

theorem nodup_subset_length_le {l1 l2 : List Nat} (hnd : l1.Nodup) (hsub : ∀ x ∈ l1, x ∈ l2) :
    l1.length ≤ l2.length := by
  calc l1.length = l1.toFinset.card := (List.toFinset_card_of_nodup hnd).symm
    _ ≤ l2.toFinset.card := Finset.card_le_card (by
        intro x hx
        rw [List.mem_toFinset] at hx ⊢
        exact hsub x hx)
    _ ≤ l2.length := l2.toFinset_card_le

theorem walkStuck_of_stepNone {g : CFG} {cur : Nat} (h : entryWalkStep g cur = none) :
    WalkStuck g cur := by
  intro c hc
  obtain ⟨b, hfb, hsucc, hne⟩ := hc
  simp only [entryWalkStep, hfb, hsucc] at h
  rcases hup : getUniquePredecessor g c with _ | p
  · exact hne hup
  · rw [hup] at h
    simp at h

theorem stepOk_of_stepSome {g : CFG} {cur nxt : Nat} (h : entryWalkStep g cur = some nxt) :
    StepOk g cur nxt := by
  rcases hfb : findBlock g cur with _ | b
  · simp [entryWalkStep, hfb] at h
  · rcases hsucc : getUniqueSuccessor b with _ | c
    · simp [entryWalkStep, hfb, hsucc] at h
    · rcases hup : getUniquePredecessor g c with _ | p
      · simp [entryWalkStep, hfb, hsucc, hup] at h
      · have hc : c = nxt := by
          simp only [entryWalkStep, hfb, hsucc, hup] at h
          exact Option.some_injective _ h
        subst hc
        exact ⟨b, hfb, hsucc, by rw [hup]; simp⟩

theorem entryWalk_spec (g : CFG)
    (hclosed : ∀ b ∈ g.blocks, ∀ s ∈ b.succs, s ∈ g.blocks.map (fun b => b.id))
    (hnp : predsOf g g.entry = []) :
    ∀ (fuel cur : Nat) (rest : List Nat),
      RPath g (cur :: rest) → (cur :: rest).Nodup →
      (∀ x ∈ cur :: rest, x ∈ g.blocks.map (fun b => b.id)) →
      g.blocks.length < (cur :: rest).length + fuel →
      WalkReaches g g.entry (entryWalk g fuel cur) ∧ WalkStuck g (entryWalk g fuel cur) := by
  intro fuel
  induction fuel with
  | zero =>
    intro cur rest hpath hnd hsub hlen
    exfalso
    have := nodup_subset_length_le hnd hsub
    rw [List.length_map] at this
    omega
  | succ n ih =>
    intro cur rest hpath hnd hsub hlen
    rcases hstep0 : entryWalkStep g cur with _ | nxt
    · simp only [entryWalk, hstep0]
      exact ⟨rpath_reaches hpath rfl, walkStuck_of_stepNone hstep0⟩
    · have hstep := stepOk_of_stepSome hstep0
      have hnotin : nxt ∉ cur :: rest := rpath_no_revisit hnp hpath hnd hstep
      have hnxt_mem : nxt ∈ g.blocks.map (fun b => b.id) := by
        obtain ⟨b, hfb, hsucc, -⟩ := hstep
        obtain ⟨hbmem, -⟩ := findBlock_eq hfb
        exact hclosed b hbmem nxt (getUniqueSuccessor_mem hsucc)
      simp only [entryWalk, hstep0]
      refine ih nxt (cur :: rest) (RPath.step hpath hstep)
        (List.nodup_cons.mpr ⟨hnotin, hnd⟩) ?_ ?_
      · intro x hx
        rcases List.mem_cons.mp hx with hx0 | hx0
        · exact hx0 ▸ hnxt_mem
        · exact hsub x hx0
      · simp only [List.length_cons] at hlen ⊢
        omega

/-- C5: when the entry-safepoint gate is open, the poll location returned by
`findLocationForEntrySafepoint` is the terminator of the block reached by
walking from the entry block along unique-successor edges whose targets have
a unique predecessor, stopping at the first split or merge.  `hclosed` and
`hnp` state well-formedness of the IR: successor edges stay inside the
function and the entry block has no predecessors. -/
theorem findLocationForEntrySafepoint_spec (opts : Options) (f : Func)
    (hclosed : ∀ b ∈ f.cfg.blocks, ∀ s ∈ b.succs, s ∈ f.cfg.blocks.map (fun b => b.id))
    (hentry : f.cfg.entry ∈ f.cfg.blocks.map (fun b => b.id))
    (hnp : predsOf f.cfg f.cfg.entry = [])
    (hrun : shouldRunWithAttr opts f.name f.attrs "gc-add-entry-safepoints" = true) :
    ∃ r, WalkReaches f.cfg f.cfg.entry r ∧ WalkStuck f.cfg r ∧
      findLocationForEntrySafepoint opts f = blockTermId f.cfg r := by
  have hmain := entryWalk_spec f.cfg hclosed hnp f.cfg.blocks.length f.cfg.entry []
    RPath.single (by simp)
    (fun x hx => by
      have : x = f.cfg.entry := by simpa using hx
      exact this ▸ hentry)
    (by simp)
  refine ⟨entryWalk f.cfg f.cfg.blocks.length f.cfg.entry, hmain.1, hmain.2, ?_⟩
  unfold findLocationForEntrySafepoint
  rw [if_neg (by simp [hrun])]

/-- Witness for C5: a straight-line chain of two blocks ending in a split;
the walk stops at the split block and picks its terminator. -/
theorem findLocationForEntrySafepoint_spec_witness :
    ∃ r, WalkReaches
        ⟨0, [⟨0, [SInst.other 0], [1]⟩, ⟨1, [SInst.other 1, SInst.other 2], [2, 3]⟩,
          ⟨2, [SInst.other 3], []⟩, ⟨3, [SInst.other 4], []⟩]⟩ 0 r ∧
      WalkStuck
        ⟨0, [⟨0, [SInst.other 0], [1]⟩, ⟨1, [SInst.other 1, SInst.other 2], [2, 3]⟩,
          ⟨2, [SInst.other 3], []⟩, ⟨3, [SInst.other 4], []⟩]⟩ r ∧
      findLocationForEntrySafepoint
        ⟨true, false, false, false, false⟩
        ⟨"f", [], false,
          ⟨0, [⟨0, [SInst.other 0], [1]⟩, ⟨1, [SInst.other 1, SInst.other 2], [2, 3]⟩,
            ⟨2, [SInst.other 3], []⟩, ⟨3, [SInst.other 4], []⟩]⟩⟩ =
        blockTermId
          ⟨0, [⟨0, [SInst.other 0], [1]⟩, ⟨1, [SInst.other 1, SInst.other 2], [2, 3]⟩,
            ⟨2, [SInst.other 3], []⟩, ⟨3, [SInst.other 4], []⟩]⟩ r :=
  findLocationForEntrySafepoint_spec
    ⟨true, false, false, false, false⟩
    ⟨"f", [], false,
      ⟨0, [⟨0, [SInst.other 0], [1]⟩, ⟨1, [SInst.other 1, SInst.other 2], [2, 3]⟩,
        ⟨2, [SInst.other 3], []⟩, ⟨3, [SInst.other 4], []⟩]⟩⟩
    (by decide) (by decide) (by decide) (by decide)

/-! ## The driver (`PlaceSafepoints::runOnFunction`)

The driver always removes unreachable blocks first, then runs the three
attribute-gated selectors (backedge polls, entry poll, call safepoints),
inserts polls at the selected locations, dedupes the collected parse points
and materializes them.  Poll inlining and statepoint materialization are
summarized at instruction granularity: a poll becomes a runtime call
inserted before the location, and materialization rewrites each selected
call in place; the full statepoint operand layout is modelled separately
for the relocation claims.
-/

/-- The successor identities of block `i`. -/
def succsOfId (g : CFG) (i : Nat) : List Nat :=
  match findBlock g i with
  | some b => b.succs
  | none => []

/-- One round of reachability expansion: add the successors of every block
collected so far. -/
def expandReach (g : CFG) (acc : List Nat) : List Nat :=
  acc ++ (acc.flatMap (succsOfId g)).filter (fun s => !acc.contains s)

/-- The block identities reachable from the entry block; one expansion per
block of the function reaches a fixed point. -/
def reachableIds (g : CFG) : List Nat :=
  Nat.iterate (expandReach g) g.blocks.length [g.entry]

/-- Modelled from the spec: `removeUnreachableBlocks` (an LLVM utility
outside the source tree) deletes every basic block unreachable from the
entry block and reports whether it changed the function. -/
def removeUnreachableBlocksFn (f : Func) : Func :=
  { f with cfg := { f.cfg with
      blocks := f.cfg.blocks.filter (fun b => b.id ∈ reachableIds f.cfg) } }

/-- Modelled from the spec: the runtime slow-path call which poll inlining
(`InsertSafepointPoll`) leaves behind and reports as a new parse point. -/
def pollRuntimeCS : CSite := ⟨false, false, some ⟨"gc.do_safepoint", [], none⟩⟩

/-- Modelled from the spec: `InsertSafepointPoll` clones the poll body
before the given terminator; the inlined body is summarized as one runtime
call instruction, which is also the parse point reported back. -/
def insertPollAt (f : Func) (termId freshId : Nat) : Func × List SInst :=
  let pollInst := SInst.call freshId pollRuntimeCS
  let blocks := f.cfg.blocks.map (fun b =>
    match b.insts.getLast? with
    | some t =>
      if instId t = termId then { b with insts := b.insts.dropLast ++ [pollInst, t] }
      else b
    | none => b)
  ({ f with cfg := { f.cfg with blocks := blocks } }, [pollInst])

/-- Insert one poll per backedge location, with fresh instruction ids. -/
def insertPollsAt (f : Func) (freshBase : Nat) : List Nat → Func × List SInst
  | [] => (f, [])
  | t :: rest =>
    let r1 := insertPollAt f t freshBase
    let r2 := insertPollsAt r1.1 (freshBase + 1) rest
    (r2.1, r1.2 ++ r2.2)

/-- The call site of an inserted statepoint. -/
def statepointCS : CSite := ⟨false, false, some ⟨"llvm.statepoint", [], some Intr.statepoint⟩⟩

/-- Source `insertParsePoints`, summarized at instruction granularity: with no
parse points every loop of the source is vacuous and the function is
returned unchanged with `records.empty()`; otherwise each selected call is
rewritten into a statepoint sequence. -/
def insertParsePointsFn (f : Func) (toUpdate : List SInst) : Func × Bool :=
  if toUpdate.isEmpty then (f, false)
  else
    ({ f with cfg := { f.cfg with blocks := f.cfg.blocks.map (fun b =>
        { b with insts := b.insts.map (fun i =>
            if i ∈ toUpdate then SInst.call (instId i) statepointCS else i) }) } },
      true)

/-- The largest instruction identity in use, as the fresh-id supply for
inserted polls. -/
def maxInstId (f : Func) : Nat :=
  (f.cfg.blocks.flatMap (fun b => b.insts)).foldl (fun m i => max m (instId i)) 0

/-- Source `PlaceSafepoints::runOnFunction`: early exit for declarations, then
unconditional `removeUnreachableBlocks`, then the three gated phases, then
dedup and materialization.  `loops` and `SE` stand for the externally
provided loop analysis and scalar evolution. -/
def runOnFunction (opts : Options) (loops : List LoopM) (SE : LoopM → Nat → Nat)
    (f : Func) : Func × Bool :=
  if f.isDecl || f.cfg.blocks.isEmpty then (f, false)
  else
    let f1 := removeUnreachableBlocksFn f
    let m1 := decide (f1 ≠ f)
    let backedgeLocs := if opts.noBackedge then [] else loops.flatMap (runOnLoopPolls opts SE f1)
    let r2 := insertPollsAt f1 (maxInstId f1 + 1) backedgeLocs
    let entryLoc := if opts.noEntry then none else findLocationForEntrySafepoint opts r2.1
    let r3 := match entryLoc with
      | none => (r2.1, ([] : List SInst))
      | some t => insertPollAt r2.1 t (maxInstId r2.1 + 1)
    let calls := if opts.noCall then [] else findCallSafepoints opts r3.1
    let parsePoints := unique_unsorted (r2.2 ++ r3.2 ++ calls)
    let r4 := insertParsePointsFn r3.1 parsePoints
    (r4.1, m1 || !backedgeLocs.isEmpty || entryLoc.isSome || r4.2)

theorem shouldRunWithAttr_eq_false {opts : Options} {fname key : String}
    {attrs : List (String × String)}
    (haf : opts.allFunctions = false) (hattr : getAttrVal attrs key ≠ "true") :
    shouldRunWithAttr opts fname attrs key = false := by
  have hbeq : (getAttrVal attrs key == "true") = false := by
    rw [beq_eq_false_iff_ne]
    exact hattr
  simp [shouldRunWithAttr, haf, hbeq]

/-- Counterexample to C3 as stated: a function with an unreachable block, no
opt-in attributes and `AllFunctions` off is still changed by the pass (the
unreachable block is deleted). -/
theorem runOnFunction_changes_unreachable :
    (runOnFunction ⟨false, false, false, false, false⟩ [] (fun _ _ => 0)
        ⟨"f", [], false, ⟨0, [⟨0, [SInst.other 0], []⟩, ⟨1, [SInst.other 1], []⟩]⟩⟩).1 ≠
      ⟨"f", [], false, ⟨0, [⟨0, [SInst.other 0], []⟩, ⟨1, [SInst.other 1], []⟩]⟩⟩ := by
  decide

/-- C3 (amended): when `AllFunctions` is off and none of the three opt-in
attributes is set to true, the pass inserts nothing: the result is exactly
the input with unreachable blocks removed, and the modification flag is set
exactly when that removal deleted something. -/
theorem runOnFunction_no_attrs (opts : Options) (loops : List LoopM)
    (SE : LoopM → Nat → Nat) (f : Func)
    (hdecl : f.isDecl = false) (hne : f.cfg.blocks.isEmpty = false)
    (haf : opts.allFunctions = false)
    (hb : getAttrVal f.attrs "gc-add-backedge-safepoints" ≠ "true")
    (he : getAttrVal f.attrs "gc-add-entry-safepoints" ≠ "true")
    (hc : getAttrVal f.attrs "gc-add-call-safepoints" ≠ "true") :
    runOnFunction opts loops SE f =
      (removeUnreachableBlocksFn f, decide (removeUnreachableBlocksFn f ≠ f)) := by
  have hflat : loops.flatMap (runOnLoopPolls opts SE (removeUnreachableBlocksFn f)) = [] := by
    induction loops with
    | nil => rfl
    | cons L rest ih =>
      rw [List.flatMap_cons, ih, List.append_nil]
      have : shouldRunWithAttr opts (removeUnreachableBlocksFn f).name
          (removeUnreachableBlocksFn f).attrs "gc-add-backedge-safepoints" = false :=
        shouldRunWithAttr_eq_false haf hb
      simp [runOnLoopPolls, this]
  have hback : (if opts.noBackedge then [] else
      loops.flatMap (runOnLoopPolls opts SE (removeUnreachableBlocksFn f))) = ([] : List Nat) := by
    cases opts.noBackedge <;> simp [hflat]
  have hentry : (if opts.noEntry then none else
      findLocationForEntrySafepoint opts (removeUnreachableBlocksFn f)) = (none : Option Nat) := by
    have : shouldRunWithAttr opts (removeUnreachableBlocksFn f).name
        (removeUnreachableBlocksFn f).attrs "gc-add-entry-safepoints" = false :=
      shouldRunWithAttr_eq_false haf he
    cases opts.noEntry <;> simp [findLocationForEntrySafepoint, this]
  have hcall : (if opts.noCall then [] else
      findCallSafepoints opts (removeUnreachableBlocksFn f)) = ([] : List SInst) := by
    have : shouldRunWithAttr opts (removeUnreachableBlocksFn f).name
        (removeUnreachableBlocksFn f).attrs "gc-add-call-safepoints" = false :=
      shouldRunWithAttr_eq_false haf hc
    cases opts.noCall <;> simp [findCallSafepoints, this]
  unfold runOnFunction
  rw [if_neg (by simp [hdecl, hne])]
  simp only [hback, insertPollsAt, hentry, hcall, List.append_nil, List.nil_append,
    unique_unsorted, uniqueAux, insertParsePointsFn, List.isEmpty_nil, if_pos,
    Option.isSome_none, List.isEmpty_cons, Bool.not_true, Bool.or_false, Bool.not_false]

/-- Witness for C3 (amended) on a concrete function with one unreachable
block and no attributes. -/
theorem runOnFunction_no_attrs_witness :
    runOnFunction ⟨false, false, false, false, false⟩ [] (fun _ _ => 0)
        ⟨"f", [], false, ⟨0, [⟨0, [SInst.other 0], []⟩, ⟨1, [SInst.other 1], []⟩]⟩⟩ =
      (removeUnreachableBlocksFn
          ⟨"f", [], false, ⟨0, [⟨0, [SInst.other 0], []⟩, ⟨1, [SInst.other 1], []⟩]⟩⟩,
        decide (removeUnreachableBlocksFn
            ⟨"f", [], false, ⟨0, [⟨0, [SInst.other 0], []⟩, ⟨1, [SInst.other 1], []⟩]⟩⟩ ≠
          ⟨"f", [], false, ⟨0, [⟨0, [SInst.other 0], []⟩, ⟨1, [SInst.other 1], []⟩]⟩⟩)) :=
  runOnFunction_no_attrs ⟨false, false, false, false, false⟩ [] (fun _ _ => 0)
    ⟨"f", [], false, ⟨0, [⟨0, [SInst.other 0], []⟩, ⟨1, [SInst.other 1], []⟩]⟩⟩
    rfl rfl rfl (by decide) (by decide) (by decide)

/-! ## The liveness engine (`computeGCPtrLiveness`, `findLiveSetAtInst`)

Liveness works over instructions with their defined value and operand list.
The per-instruction transfer function kills the defined value and generates
the GC-pointer operands, filtering out null and undef; the global mode is
the classic backward worklist dataflow, with explicit fuel standing in for
its fixed-point loop.
-/

/-- An instruction for liveness purposes: the value it defines and its
operand values. -/
structure Instr where
  val : Value
  ops : List Value
deriving DecidableEq, Repr

/-- The gen filter of the transfer function: GC-pointer typed, not null, not
undef. -/
def liveGen (V : Value) : Bool := isGCPointerType V.ty && !isNull V && !isUndef V

/-- One instruction of the backward transfer: kill the defined value, then
add the filtered operands. -/
def instTransfer (live : Finset Value) (I : Instr) : Finset Value :=
  (live.erase I.val) ∪ (I.ops.filter liveGen).toFinset

/-- Source `computeGCPtrLiveness(rbegin, rend, LiveTmp)`: apply the transfer to the
given instruction range from the last instruction backwards. -/
def computeGCPtrLivenessRange (insts : List Instr) (liveOut : Finset Value) : Finset Value :=
  insts.reverse.foldl instTransfer liveOut

/-- A basic block at liveness granularity. -/
structure LBlock where
  id : Nat
  insts : List Instr
  succs : List Nat
deriving DecidableEq, Repr

/-- A function at liveness granularity. -/
structure LFn where
  blocks : List LBlock
deriving DecidableEq, Repr

/-- The per-block live-in and live-out sets (`GCPtrLivenessData`). -/
structure GCPtrLivenessData where
  liveIn : Nat → Finset Value
  liveOut : Nat → Finset Value

def findLBlock (F : LFn) (i : Nat) : Option LBlock :=
  F.blocks.find? (fun b => b.id == i)

def lpredsOf (F : LFn) (i : Nat) : List Nat :=
  (F.blocks.filter (fun b => i ∈ b.succs)).map (fun b => b.id)

def updateFn (m : Nat → Finset Value) (k : Nat) (v : Finset Value) : Nat → Finset Value :=
  fun i => if i = k then v else m i

/-- One visit of a popped block in the global liveness dataflow: recompute
its live-out as the union of the successor live-ins; skip when unchanged and
already visited; otherwise store the new live-out, retransfer the block, and
when the live-in changed store it and report the predecessors to push (only
when the new live-in is nonempty). -/
def livenessBody (F : LFn) (d : GCPtrLivenessData) (bbid : Nat) :
    GCPtrLivenessData × List Nat :=
  match findLBlock F bbid with
  | none => (d, [])
  | some BB =>
    if BB.succs.foldl (fun acc s => acc ∪ d.liveIn s) ∅ ≠ ∅ ∧
        BB.succs.foldl (fun acc s => acc ∪ d.liveIn s) ∅ = d.liveOut bbid then
      (d, [])
    else
      if computeGCPtrLivenessRange BB.insts
          (BB.succs.foldl (fun acc s => acc ∪ d.liveIn s) ∅) = d.liveIn bbid then
        (⟨d.liveIn, updateFn d.liveOut bbid
            (BB.succs.foldl (fun acc s => acc ∪ d.liveIn s) ∅)⟩, [])
      else
        (⟨updateFn d.liveIn bbid (computeGCPtrLivenessRange BB.insts
              (BB.succs.foldl (fun acc s => acc ∪ d.liveIn s) ∅)),
          updateFn d.liveOut bbid (BB.succs.foldl (fun acc s => acc ∪ d.liveIn s) ∅)⟩,
          if computeGCPtrLivenessRange BB.insts
              (BB.succs.foldl (fun acc s => acc ∪ d.liveIn s) ∅) ≠ ∅
          then lpredsOf F bbid else [])

/-- The worklist loop of the global liveness dataflow, with explicit fuel
standing in for its fixed-point loop: pop a block from the back of the
worklist, visit it, push what the visit reports. -/
def livenessLoop (F : LFn) : Nat → GCPtrLivenessData → List Nat → GCPtrLivenessData
  | 0, d, _ => d
  | fuel + 1, d, wl =>
    match wl.getLast? with
    | none => d
    | some bbid =>
      livenessLoop F fuel (livenessBody F d bbid).1
        (wl.dropLast ++ (livenessBody F d bbid).2)

/-- Source `computeGCPtrLiveness(F, Data)`: empty initial sets, worklist seeded
with every block. -/
def computeGCPtrLiveness (F : LFn) (fuel : Nat) : GCPtrLivenessData :=
  livenessLoop F fuel ⟨fun _ => ∅, fun _ => ∅⟩ (F.blocks.map (fun b => b.id))

/-- Source `findLiveSetAtInst`: start from the cached live-out of the block of the
instruction, transfer the block suffix from the instruction to the end, and
drop the value the instruction itself defines. -/
def findLiveSetAtInst (data : GCPtrLivenessData) (B : LBlock) (k : Nat) : Finset Value :=
  let suffix := B.insts.drop k
  let lv := computeGCPtrLivenessRange suffix (data.liveOut B.id)
  match suffix.head? with
  | some I => lv.erase I.val
  | none => lv

/-- The invariant the liveness sets maintain: only GC-pointer-typed values,
never null, never undef. -/
def GoodLive (s : Finset Value) : Prop :=
  ∀ v ∈ s, isGCPointerType v.ty = true ∧
    v.kind ≠ ValKind.nullConst ∧ v.kind ≠ ValKind.undefConst

theorem liveGen_good {v : Value} (h : liveGen v = true) :
    isGCPointerType v.ty = true ∧
      v.kind ≠ ValKind.nullConst ∧ v.kind ≠ ValKind.undefConst := by
  simp only [liveGen, Bool.and_eq_true] at h
  obtain ⟨⟨h1, h2⟩, h3⟩ := h
  refine ⟨h1, ?_, ?_⟩
  · intro hk
    simp [isNull, hk] at h2
  · intro hk
    simp [isUndef, hk] at h3

theorem mem_instTransfer {live : Finset Value} {I : Instr} {v : Value} :
    v ∈ instTransfer live I ↔
      (v ∈ live ∧ v ≠ I.val) ∨ (v ∈ I.ops ∧ liveGen v = true) := by
  simp only [instTransfer, Finset.mem_union, Finset.mem_erase, List.mem_toFinset,
    List.mem_filter]
  constructor
  · rintro (⟨h1, h2⟩ | h)
    · exact Or.inl ⟨h2, h1⟩
    · exact Or.inr h
  · rintro (⟨h1, h2⟩ | h)
    · exact Or.inl ⟨h2, h1⟩
    · exact Or.inr h

theorem goodLive_instTransfer {live : Finset Value} {I : Instr}
    (h : GoodLive live) : GoodLive (instTransfer live I) := by
  intro v hv
  rcases mem_instTransfer.mp hv with ⟨h1, -⟩ | ⟨-, h2⟩
  · exact h v h1
  · exact liveGen_good h2

theorem goodLive_foldl_transfer :
    ∀ (l : List Instr) (s : Finset Value), GoodLive s → GoodLive (l.foldl instTransfer s) := by
  intro l
  induction l with
  | nil => intro s h; exact h
  | cons I rest ih =>
    intro s h
    exact ih (instTransfer s I) (goodLive_instTransfer h)

theorem goodLive_range {insts : List Instr} {s : Finset Value} (h : GoodLive s) :
    GoodLive (computeGCPtrLivenessRange insts s) :=
  goodLive_foldl_transfer insts.reverse s h

/-- The dataflow invariant over both maps. -/
def GoodData (d : GCPtrLivenessData) : Prop :=
  (∀ i, GoodLive (d.liveIn i)) ∧ (∀ i, GoodLive (d.liveOut i))

theorem goodLive_union {s t : Finset Value} (hs : GoodLive s) (ht : GoodLive t) :
    GoodLive (s ∪ t) := by
  intro v hv
  rcases Finset.mem_union.mp hv with h | h
  · exact hs v h
  · exact ht v h

theorem goodLive_foldl_union {d : GCPtrLivenessData} (hd : ∀ i, GoodLive (d.liveIn i)) :
    ∀ (l : List Nat) (acc : Finset Value), GoodLive acc →
      GoodLive (l.foldl (fun acc s => acc ∪ d.liveIn s) acc) := by
  intro l
  induction l with
  | nil => intro acc h; exact h
  | cons s rest ih =>
    intro acc h
    exact ih (acc ∪ d.liveIn s) (goodLive_union h (hd s))

theorem goodLive_updateFn {m : Nat → Finset Value} {k : Nat} {v : Finset Value}
    (hm : ∀ i, GoodLive (m i)) (hv : GoodLive v) : ∀ i, GoodLive (updateFn m k v i) := by
  intro i
  unfold updateFn
  by_cases h : i = k
  · rw [if_pos h]; exact hv
  · rw [if_neg h]; exact hm i

theorem goodData_livenessBody (F : LFn) (d : GCPtrLivenessData) (bbid : Nat)
    (h : GoodData d) : GoodData (livenessBody F d bbid).1 := by
  unfold livenessBody
  split
  · exact h
  · rename_i BB hfb
    split
    · exact h
    · have hGoodOut : GoodLive (BB.succs.foldl (fun acc s => acc ∪ d.liveIn s) ∅) :=
        goodLive_foldl_union h.1 BB.succs ∅ (fun v hv => by simp at hv)
      split
      · exact ⟨h.1, goodLive_updateFn h.2 hGoodOut⟩
      · exact ⟨goodLive_updateFn h.1 (goodLive_range hGoodOut),
          goodLive_updateFn h.2 hGoodOut⟩

theorem goodData_livenessLoop (F : LFn) :
    ∀ (fuel : Nat) (d : GCPtrLivenessData) (wl : List Nat),
      GoodData d → GoodData (livenessLoop F fuel d wl) := by
  intro fuel
  induction fuel with
  | zero => intro d wl h; exact h
  | succ n ih =>
    intro d wl h
    rw [livenessLoop]
    cases hlast : wl.getLast? with
    | none => exact h
    | some bbid => exact ih _ _ (goodData_livenessBody F d bbid h)

theorem goodData_computeGCPtrLiveness (F : LFn) (fuel : Nat) :
    GoodData (computeGCPtrLiveness F fuel) :=
  goodData_livenessLoop F fuel _ _
    ⟨fun _ v hv => by simp at hv, fun _ v hv => by simp at hv⟩

/-- C8: the live set computed for the entry of instruction `I` (position `k`
of block `B` of the function) excludes the value `I` itself defines and
contains neither the null constant nor any undef value; and membership is
generated only from GC-pointer-typed, non-null, non-undef operands (the
characterization of the per-instruction transfer). -/
theorem findLiveSetAtInst_spec (F : LFn) (fuel : Nat) (bbid k : Nat)
    (B : LBlock) (I : Instr)
    (hB : findLBlock F bbid = some B)
    (hI : B.insts[k]? = some I) :
    I.val ∉ findLiveSetAtInst (computeGCPtrLiveness F fuel) B k ∧
    (∀ v ∈ findLiveSetAtInst (computeGCPtrLiveness F fuel) B k,
      isGCPointerType v.ty = true ∧
        v.kind ≠ ValKind.nullConst ∧ v.kind ≠ ValKind.undefConst) ∧
    (∀ (live : Finset Value) (I2 : Instr) (v : Value),
      v ∈ instTransfer live I2 ↔
        (v ∈ live ∧ v ≠ I2.val) ∨ (v ∈ I2.ops ∧ liveGen v = true)) := by
  have hhead : (B.insts.drop k).head? = some I := by
    rw [List.head?_drop]
    exact hI
  have hgood : GoodLive (computeGCPtrLivenessRange (B.insts.drop k)
      ((computeGCPtrLiveness F fuel).liveOut B.id)) :=
    goodLive_range ((goodData_computeGCPtrLiveness F fuel).2 B.id)
  refine ⟨?_, ?_, fun live I2 v => mem_instTransfer⟩
  · unfold findLiveSetAtInst
    simp only [hhead]
    exact Finset.not_mem_erase _ _
  · intro v hv
    unfold findLiveSetAtInst at hv
    simp only [hhead] at hv
    exact hgood v (Finset.mem_of_mem_erase hv)

/-- Witness for C8 on a one-block function whose call instruction has a GC
pointer, a null and an undef operand. -/
theorem findLiveSetAtInst_spec_witness :
    (findLBlock ⟨[⟨0, [⟨⟨10, Ty.int 32, ValKind.instruction⟩,
        [⟨1, Ty.ptr 1, ValKind.argument⟩, ⟨2, Ty.ptr 1, ValKind.nullConst⟩,
          ⟨3, Ty.ptr 1, ValKind.undefConst⟩]⟩], []⟩]⟩ 0 =
      some ⟨0, [⟨⟨10, Ty.int 32, ValKind.instruction⟩,
        [⟨1, Ty.ptr 1, ValKind.argument⟩, ⟨2, Ty.ptr 1, ValKind.nullConst⟩,
          ⟨3, Ty.ptr 1, ValKind.undefConst⟩]⟩], []⟩) ∧
    Value.mk 10 (Ty.int 32) ValKind.instruction ∉
      findLiveSetAtInst (computeGCPtrLiveness ⟨[⟨0, [⟨⟨10, Ty.int 32, ValKind.instruction⟩,
        [⟨1, Ty.ptr 1, ValKind.argument⟩, ⟨2, Ty.ptr 1, ValKind.nullConst⟩,
          ⟨3, Ty.ptr 1, ValKind.undefConst⟩]⟩], []⟩]⟩ 4)
        ⟨0, [⟨⟨10, Ty.int 32, ValKind.instruction⟩,
          [⟨1, Ty.ptr 1, ValKind.argument⟩, ⟨2, Ty.ptr 1, ValKind.nullConst⟩,
            ⟨3, Ty.ptr 1, ValKind.undefConst⟩]⟩], []⟩ 0 :=
  ⟨by decide,
    (findLiveSetAtInst_spec ⟨[⟨0, [⟨⟨10, Ty.int 32, ValKind.instruction⟩,
        [⟨1, Ty.ptr 1, ValKind.argument⟩, ⟨2, Ty.ptr 1, ValKind.nullConst⟩,
          ⟨3, Ty.ptr 1, ValKind.undefConst⟩]⟩], []⟩]⟩ 4 0 0
      ⟨0, [⟨⟨10, Ty.int 32, ValKind.instruction⟩,
        [⟨1, Ty.ptr 1, ValKind.argument⟩, ⟨2, Ty.ptr 1, ValKind.nullConst⟩,
          ⟨3, Ty.ptr 1, ValKind.undefConst⟩]⟩], []⟩
      ⟨⟨10, Ty.int 32, ValKind.instruction⟩,
        [⟨1, Ty.ptr 1, ValKind.argument⟩, ⟨2, Ty.ptr 1, ValKind.nullConst⟩,
          ⟨3, Ty.ptr 1, ValKind.undefConst⟩]⟩
      (by decide) (by decide)).1⟩

/-! ## Statepoint materialization (`CreateSafepoint`, `find_index`)

`CreateSafepoint` builds the statepoint argument vector: callee, argument
count, a reserved flag, five abstract-state header fields, the original call
arguments, the typed abstract-state elements, and finally — from offset
`live_start`, remembered just before the insertion — the live GC values.
Each gc_relocate then receives exactly the token and the two indices
`live_start + find_index(live, base)` and `live_start + find_index(live, v)`.
-/

/-- A statepoint operand: a small integer constant or an IR value. -/
inductive SPOperand where
  | cint (n : Int)
  | val (v : Value)
deriving DecidableEq, Repr

/-- The abstract VM state attached to a call site (`JVMState`): bytecode
index, typed stack elements, typed locals, monitors. -/
structure JVMStateData where
  bci : Int
  stackElems : List (Int × Value)
  locals : List (Int × Value)
  monitors : List Value
deriving DecidableEq, Repr

/-- The call being replaced: its callee and its argument values. -/
structure CallDesc where
  callee : Value
  callArgs : List Value
deriving DecidableEq, Repr

/-- The five abstract-state header fields: caller depth, bci, stack depth,
local count, monitor count — or the zero/minus-one placeholders when no VM
state is attached. -/
def jvmStateHeader (jvm : Option JVMStateData) : List SPOperand :=
  match jvm with
  | some s => [SPOperand.cint 0, SPOperand.cint s.bci,
      SPOperand.cint s.stackElems.length, SPOperand.cint s.locals.length,
      SPOperand.cint s.monitors.length]
  | none => [SPOperand.cint 0, SPOperand.cint (-1), SPOperand.cint 0,
      SPOperand.cint 0, SPOperand.cint 0]

/-- The typed abstract-state tail: (type tag, value) per stack element and
local, then the monitors. -/
def jvmStateBody (jvm : Option JVMStateData) : List SPOperand :=
  match jvm with
  | some s =>
    s.stackElems.flatMap (fun p => [SPOperand.cint p.1, SPOperand.val p.2]) ++
      s.locals.flatMap (fun p => [SPOperand.cint p.1, SPOperand.val p.2]) ++
      s.monitors.map SPOperand.val
  | none => []

/-- Everything `CreateSafepoint` pushes onto `args` before the live GC
values: callee, argument count, the unused flag word, the state header, the
original call arguments, the state body. -/
def statepointArgsBeforeLive (cs : CallDesc) (jvm : Option JVMStateData) : List SPOperand :=
  [SPOperand.val cs.callee, SPOperand.cint cs.callArgs.length, SPOperand.cint 0] ++
    jvmStateHeader jvm ++ cs.callArgs.map SPOperand.val ++ jvmStateBody jvm

/-- Source `live_start`: the size of `args` at the moment the live values are
appended. -/
def liveStart (cs : CallDesc) (jvm : Option JVMStateData) : Nat :=
  (statepointArgsBeforeLive cs jvm).length

/-- The full statepoint argument vector. -/
def statepointArgs (cs : CallDesc) (jvm : Option JVMStateData)
    (liveVariables : List Value) : List SPOperand :=
  statepointArgsBeforeLive cs jvm ++ liveVariables.map SPOperand.val

/-- Source `find_index`: position of the first occurrence of `val` in the live
vector (the source asserts the element is present). -/
def find_index (livevec : List Value) (val : Value) : Nat :=
  livevec.indexOf val

/-- The operand vector of the gc_relocate emitted for position `i` of the
live vector: the token plus the two `live_start`-offset indices. -/
def gcRelocateOps (token : Value) (cs : CallDesc) (jvm : Option JVMStateData)
    (basePtrs liveVariables : List Value) (i : Nat) : List SPOperand :=
  [SPOperand.val token,
    SPOperand.cint (liveStart cs jvm +
      find_index liveVariables (basePtrs.getD i token)),
    SPOperand.cint (liveStart cs jvm +
      find_index liveVariables (liveVariables.getD i token))]

/-- All gc_relocates of one statepoint, one per live value. -/
def gcRelocatesOf (token : Value) (cs : CallDesc) (jvm : Option JVMStateData)
    (basePtrs liveVariables : List Value) : List (List SPOperand) :=
  (List.range liveVariables.length).map
    (gcRelocateOps token cs jvm basePtrs liveVariables)

theorem statepointArgs_getElem_live (cs : CallDesc) (jvm : Option JVMStateData)
    (liveVariables : List Value) (j : Nat) (hj : j < liveVariables.length) :
    (statepointArgs cs jvm liveVariables)[liveStart cs jvm + j]? =
      (liveVariables[j]?).map SPOperand.val := by
  unfold statepointArgs liveStart
  rw [List.getElem?_append_right (by omega)]
  have : (statepointArgsBeforeLive cs jvm).length + j - (statepointArgsBeforeLive cs jvm).length = j := by
    omega
  rw [this, List.getElem?_map]

/-- C7: the gc_relocate emitted for the live value `v` at position `i` has
exactly the three operands (token, baseIndex, derivedIndex); both indices
point into the live region of the statepoint operand vector, which starts at
offset `live_start`, and the statepoint operands at those indices are
exactly the base of `v` and `v` itself. -/
theorem gcRelocate_operands_spec (token : Value) (cs : CallDesc)
    (jvm : Option JVMStateData) (basePtrs liveVariables : List Value)
    (i : Nat) (b v : Value)
    (hlen : basePtrs.length = liveVariables.length)
    (hb : basePtrs[i]? = some b)
    (hv : liveVariables[i]? = some v)
    (hbmem : b ∈ liveVariables) :
    (gcRelocatesOf token cs jvm basePtrs liveVariables)[i]? =
      some [SPOperand.val token,
        SPOperand.cint (liveStart cs jvm + find_index liveVariables b),
        SPOperand.cint (liveStart cs jvm + find_index liveVariables v)] ∧
    (statepointArgs cs jvm liveVariables)[liveStart cs jvm +
        find_index liveVariables b]? = some (SPOperand.val b) ∧
    (statepointArgs cs jvm liveVariables)[liveStart cs jvm +
        find_index liveVariables v]? = some (SPOperand.val v) ∧
    liveStart cs jvm ≤ liveStart cs jvm + find_index liveVariables b ∧
    liveStart cs jvm + find_index liveVariables b <
      liveStart cs jvm + liveVariables.length ∧
    liveStart cs jvm ≤ liveStart cs jvm + find_index liveVariables v ∧
    liveStart cs jvm + find_index liveVariables v <
      liveStart cs jvm + liveVariables.length := by
  have hi : i < liveVariables.length := by
    have := List.getElem?_eq_some_iff.mp hv
    exact this.1
  have hvmem : v ∈ liveVariables := by
    have := List.getElem?_eq_some_iff.mp hv
    obtain ⟨h1, h2⟩ := this
    exact h2 ▸ List.getElem_mem h1
  have hblt : find_index liveVariables b < liveVariables.length :=
    List.indexOf_lt_length.mpr hbmem
  have hvlt : find_index liveVariables v < liveVariables.length :=
    List.indexOf_lt_length.mpr hvmem
  refine ⟨?_, ?_, ?_, by omega, by omega, by omega, by omega⟩
  · unfold gcRelocatesOf
    rw [List.getElem?_map, List.getElem?_range hi]
    unfold gcRelocateOps
    have hbD : basePtrs.getD i token = b := by
      rw [List.getD_eq_getElem?_getD, hb]
      rfl
    have hvD : liveVariables.getD i token = v := by
      rw [List.getD_eq_getElem?_getD, hv]
      rfl
    simp only [Option.map_some', Option.some.injEq]
    rw [hbD, hvD]
  · rw [statepointArgs_getElem_live cs jvm liveVariables _ hblt]
    rw [List.getElem?_eq_getElem hblt]
    unfold find_index
    rw [List.getElem_indexOf (List.indexOf_lt_length.mpr hbmem)]
    rfl
  · rw [statepointArgs_getElem_live cs jvm liveVariables _ hvlt]
    rw [List.getElem?_eq_getElem hvlt]
    unfold find_index
    rw [List.getElem_indexOf (List.indexOf_lt_length.mpr hvmem)]
    rfl

/-- Witness for C7: two live values `p` (a base) and `q` derived from `p`;
the relocate of `q` carries the indices of `p` and `q` in the live region. -/
theorem gcRelocate_operands_spec_witness :
    (gcRelocatesOf ⟨99, Ty.other, ValKind.instruction⟩ ⟨⟨50, Ty.other, ValKind.global⟩, []⟩
        none [⟨1, Ty.ptr 1, ValKind.argument⟩, ⟨1, Ty.ptr 1, ValKind.argument⟩]
        [⟨1, Ty.ptr 1, ValKind.argument⟩, ⟨2, Ty.ptr 1, ValKind.instruction⟩])[1]? =
      some [SPOperand.val ⟨99, Ty.other, ValKind.instruction⟩,
        SPOperand.cint (liveStart ⟨⟨50, Ty.other, ValKind.global⟩, []⟩ none +
          find_index [⟨1, Ty.ptr 1, ValKind.argument⟩, ⟨2, Ty.ptr 1, ValKind.instruction⟩]
            ⟨1, Ty.ptr 1, ValKind.argument⟩),
        SPOperand.cint (liveStart ⟨⟨50, Ty.other, ValKind.global⟩, []⟩ none +
          find_index [⟨1, Ty.ptr 1, ValKind.argument⟩, ⟨2, Ty.ptr 1, ValKind.instruction⟩]
            ⟨2, Ty.ptr 1, ValKind.instruction⟩)] ∧
    (statepointArgs ⟨⟨50, Ty.other, ValKind.global⟩, []⟩ none
        [⟨1, Ty.ptr 1, ValKind.argument⟩, ⟨2, Ty.ptr 1, ValKind.instruction⟩])[
        liveStart ⟨⟨50, Ty.other, ValKind.global⟩, []⟩ none +
          find_index [⟨1, Ty.ptr 1, ValKind.argument⟩, ⟨2, Ty.ptr 1, ValKind.instruction⟩]
            ⟨1, Ty.ptr 1, ValKind.argument⟩]? =
      some (SPOperand.val ⟨1, Ty.ptr 1, ValKind.argument⟩) ∧
    (statepointArgs ⟨⟨50, Ty.other, ValKind.global⟩, []⟩ none
        [⟨1, Ty.ptr 1, ValKind.argument⟩, ⟨2, Ty.ptr 1, ValKind.instruction⟩])[
        liveStart ⟨⟨50, Ty.other, ValKind.global⟩, []⟩ none +
          find_index [⟨1, Ty.ptr 1, ValKind.argument⟩, ⟨2, Ty.ptr 1, ValKind.instruction⟩]
            ⟨2, Ty.ptr 1, ValKind.instruction⟩]? =
      some (SPOperand.val ⟨2, Ty.ptr 1, ValKind.instruction⟩) ∧
    liveStart ⟨⟨50, Ty.other, ValKind.global⟩, []⟩ none ≤
      liveStart ⟨⟨50, Ty.other, ValKind.global⟩, []⟩ none +
        find_index [⟨1, Ty.ptr 1, ValKind.argument⟩, ⟨2, Ty.ptr 1, ValKind.instruction⟩]
          ⟨1, Ty.ptr 1, ValKind.argument⟩ ∧
    liveStart ⟨⟨50, Ty.other, ValKind.global⟩, []⟩ none +
        find_index [⟨1, Ty.ptr 1, ValKind.argument⟩, ⟨2, Ty.ptr 1, ValKind.instruction⟩]
          ⟨1, Ty.ptr 1, ValKind.argument⟩ <
      liveStart ⟨⟨50, Ty.other, ValKind.global⟩, []⟩ none +
        ([⟨1, Ty.ptr 1, ValKind.argument⟩,
          (⟨2, Ty.ptr 1, ValKind.instruction⟩ : Value)] : List Value).length ∧
    liveStart ⟨⟨50, Ty.other, ValKind.global⟩, []⟩ none ≤
      liveStart ⟨⟨50, Ty.other, ValKind.global⟩, []⟩ none +
        find_index [⟨1, Ty.ptr 1, ValKind.argument⟩, ⟨2, Ty.ptr 1, ValKind.instruction⟩]
          ⟨2, Ty.ptr 1, ValKind.instruction⟩ ∧
    liveStart ⟨⟨50, Ty.other, ValKind.global⟩, []⟩ none +
        find_index [⟨1, Ty.ptr 1, ValKind.argument⟩, ⟨2, Ty.ptr 1, ValKind.instruction⟩]
          ⟨2, Ty.ptr 1, ValKind.instruction⟩ <
      liveStart ⟨⟨50, Ty.other, ValKind.global⟩, []⟩ none +
        ([⟨1, Ty.ptr 1, ValKind.argument⟩,
          (⟨2, Ty.ptr 1, ValKind.instruction⟩ : Value)] : List Value).length :=
  gcRelocate_operands_spec ⟨99, Ty.other, ValKind.instruction⟩
    ⟨⟨50, Ty.other, ValKind.global⟩, []⟩ none
    [⟨1, Ty.ptr 1, ValKind.argument⟩, ⟨1, Ty.ptr 1, ValKind.argument⟩]
    [⟨1, Ty.ptr 1, ValKind.argument⟩, ⟨2, Ty.ptr 1, ValKind.instruction⟩] 1
    ⟨1, Ty.ptr 1, ValKind.argument⟩ ⟨2, Ty.ptr 1, ValKind.instruction⟩
    (by decide) (by decide) (by decide) (by decide)

/-! ## Relocation rewriting (`relocationViaAlloca`)

The phase allocates one stack slot per distinct live GC value at the
function entry, inserts stores of original defs and of relocated (or null)
values after each safepoint, loads before every use, and finally promotes
the collected slots back to SSA.  Instructions are tracked at kind
granularity (alloca / store / load / other), which is exactly what the
alloca-count check of the source observes.
-/

/-- Instruction kinds as the alloca count distinguishes them. -/
inductive RKind where
  | alloca
  | store
  | load
  | callInst
  | otherInst
deriving DecidableEq, Repr

/-- An instruction of the function body during relocation rewriting. -/
structure RInstr where
  id : Nat
  kind : RKind
deriving DecidableEq, Repr

/-- What `relocationViaAlloca` reads out of one safepoint record: which live
slots have a gc_relocate at this safepoint, and which slot (if any) holds
the gc_result of the site itself. -/
structure RelocRecord where
  relocatedSlots : List Nat
  resultSlot : Option Nat
deriving DecidableEq, Repr

/-- The stores inserted for one safepoint: a store of the relocated value
for each relocated slot, a store of null for each slot not relocated here,
nothing for the slot of the gc_result (handled with the original defs). -/
def storesForRecord (live : List Value) (r : RelocRecord) : List RInstr :=
  (List.range live.length).filterMap (fun i =>
    if i ∈ r.relocatedSlots then some ⟨0, RKind.store⟩
    else if r.resultSlot = some i then none
    else some ⟨0, RKind.store⟩)

/-- Modelled from the spec: `PromoteMemToReg` (mem2reg, an external service)
eliminates exactly the promotable allocas handed to it, rewriting their
loads and stores into SSA form. -/
def promoteMemToReg (promotable : List RInstr) (f : List RInstr) : List RInstr :=
  f.filter (fun I => !promotable.contains I)

/-- The count of alloca instructions in a function body. -/
def countAllocas (f : List RInstr) : Nat :=
  f.countP (fun I => I.kind == RKind.alloca)

/-- Source `relocationViaAlloca`: allocate one slot per live value in the entry
block (with fresh identities from `fresh` up), insert the per-safepoint
update stores, one load per use of an original def, and one store per
original def, then promote the collected slots.  `useCount` stands for the
number of uses each live def has. -/
def relocationViaAlloca (f : List RInstr) (live : List Value)
    (records : List RelocRecord) (useCount : Value → Nat) (fresh : Nat) : List RInstr :=
  let newAllocas := (List.range live.length).map (fun i => RInstr.mk (fresh + i) RKind.alloca)
  let relocStores := records.flatMap (storesForRecord live)
  let useLoads := live.flatMap (fun v => (List.range (useCount v)).map (fun _ =>
    RInstr.mk 0 RKind.load))
  let defStores := live.map (fun _ => RInstr.mk 0 RKind.store)
  let fBody := newAllocas ++ f ++ relocStores ++ useLoads ++ defStores
  if newAllocas.isEmpty then fBody
  else promoteMemToReg newAllocas fBody

theorem countAllocas_append (l1 l2 : List RInstr) :
    countAllocas (l1 ++ l2) = countAllocas l1 + countAllocas l2 :=
  List.countP_append _ _ _

theorem countAllocas_eq_zero {l : List RInstr}
    (h : ∀ I ∈ l, I.kind ≠ RKind.alloca) : countAllocas l = 0 := by
  unfold countAllocas
  rw [List.countP_eq_zero]
  intro I hI
  simp only [beq_iff_eq]
  exact fun hk => h I hI (by simp [hk])

theorem storesForRecord_no_alloca (live : List Value) (r : RelocRecord) :
    ∀ I ∈ storesForRecord live r, I.kind ≠ RKind.alloca := by
  intro I hI
  unfold storesForRecord at hI
  obtain ⟨i, -, hsome⟩ := List.mem_filterMap.mp hI
  by_cases h1 : i ∈ r.relocatedSlots
  · rw [if_pos h1] at hsome
    have : I = ⟨0, RKind.store⟩ := (Option.some_injective _ hsome).symm
    rw [this]
    simp
  · rw [if_neg h1] at hsome
    by_cases h2 : r.resultSlot = some i
    · rw [if_pos h2] at hsome
      simp at hsome
    · rw [if_neg h2] at hsome
      have : I = ⟨0, RKind.store⟩ := (Option.some_injective _ hsome).symm
      rw [this]
      simp

/-- C9: relocation rewriting preserves the number of allocas: every stack
slot the phase introduces is eliminated by the final promotion.  `hfresh`
states that the fresh identities handed to the phase are really fresh. -/
theorem relocationViaAlloca_alloca_count (f : List RInstr) (live : List Value)
    (records : List RelocRecord) (useCount : Value → Nat) (fresh : Nat)
    (hfresh : ∀ I ∈ f, I.id < fresh) :
    countAllocas (relocationViaAlloca f live records useCount fresh) = countAllocas f := by
  unfold relocationViaAlloca
  have hreloc : ∀ I ∈ records.flatMap (storesForRecord live), I.kind ≠ RKind.alloca := by
    intro I hI
    obtain ⟨r, -, hmem⟩ := List.mem_flatMap.mp hI
    exact storesForRecord_no_alloca live r I hmem
  have hloads : ∀ I ∈ live.flatMap (fun v => (List.range (useCount v)).map (fun _ =>
      RInstr.mk 0 RKind.load)), I.kind ≠ RKind.alloca := by
    intro I hI
    obtain ⟨v, -, hmem⟩ := List.mem_flatMap.mp hI
    obtain ⟨-, -, heq⟩ := List.mem_map.mp hmem
    rw [← heq]
    simp
  have hdefs : ∀ I ∈ live.map (fun _ => RInstr.mk 0 RKind.store),
      I.kind ≠ RKind.alloca := by
    intro I hI
    obtain ⟨-, -, heq⟩ := List.mem_map.mp hI
    rw [← heq]
    simp
  by_cases hempty : ((List.range live.length).map
      (fun i => RInstr.mk (fresh + i) RKind.alloca)).isEmpty
  · rw [if_pos hempty]
    have hnil : (List.range live.length).map
        (fun i => RInstr.mk (fresh + i) RKind.alloca) = [] := by
      rwa [List.isEmpty_iff] at hempty
    rw [hnil, List.nil_append, countAllocas_append, countAllocas_append,
      countAllocas_append, countAllocas_eq_zero hreloc, countAllocas_eq_zero hloads,
      countAllocas_eq_zero hdefs]
    omega
  · rw [if_neg hempty]
    unfold promoteMemToReg
    have hsplit : ∀ (l1 l2 : List RInstr),
        (l1 ++ l2).filter (fun I => !((List.range live.length).map
          (fun i => RInstr.mk (fresh + i) RKind.alloca)).contains I) =
        l1.filter (fun I => !((List.range live.length).map
          (fun i => RInstr.mk (fresh + i) RKind.alloca)).contains I) ++
        l2.filter (fun I => !((List.range live.length).map
          (fun i => RInstr.mk (fresh + i) RKind.alloca)).contains I) :=
      fun l1 l2 => List.filter_append l1 l2
    rw [hsplit, hsplit, hsplit, hsplit]
    have hAllocasGone : ((List.range live.length).map
        (fun i => RInstr.mk (fresh + i) RKind.alloca)).filter
          (fun I => !((List.range live.length).map
            (fun i => RInstr.mk (fresh + i) RKind.alloca)).contains I) = [] := by
      rw [List.filter_eq_nil_iff]
      intro I hI
      have hc : ((List.range live.length).map
          (fun i => RInstr.mk (fresh + i) RKind.alloca)).contains I = true :=
        List.elem_eq_true_of_mem hI
      rw [hc]
      simp
    have hfKept : f.filter (fun I => !((List.range live.length).map
        (fun i => RInstr.mk (fresh + i) RKind.alloca)).contains I) = f := by
      rw [List.filter_eq_self]
      intro I hI
      have hnot : I ∉ (List.range live.length).map
          (fun i => RInstr.mk (fresh + i) RKind.alloca) := by
        intro hmem
        obtain ⟨j, -, heq⟩ := List.mem_map.mp hmem
        have := hfresh I hI
        rw [← heq] at this
        simp at this
      have hc : ((List.range live.length).map
          (fun i => RInstr.mk (fresh + i) RKind.alloca)).contains I = false := by
        show List.elem I ((List.range live.length).map
          (fun i => RInstr.mk (fresh + i) RKind.alloca)) = false
        rw [List.elem_eq_mem]
        simpa using hnot
      rw [hc]
      simp
    rw [hAllocasGone, hfKept, List.nil_append]
    have hsub1 : countAllocas ((records.flatMap (storesForRecord live)).filter
        (fun I => !((List.range live.length).map
          (fun i => RInstr.mk (fresh + i) RKind.alloca)).contains I)) = 0 :=
      countAllocas_eq_zero (fun I hI => hreloc I (List.mem_of_mem_filter hI))
    have hsub2 : countAllocas ((live.flatMap (fun v => (List.range (useCount v)).map
        (fun _ => RInstr.mk 0 RKind.load))).filter
        (fun I => !((List.range live.length).map
          (fun i => RInstr.mk (fresh + i) RKind.alloca)).contains I)) = 0 :=
      countAllocas_eq_zero (fun I hI => hloads I (List.mem_of_mem_filter hI))
    have hsub3 : countAllocas ((live.map (fun _ => RInstr.mk 0 RKind.store)).filter
        (fun I => !((List.range live.length).map
          (fun i => RInstr.mk (fresh + i) RKind.alloca)).contains I)) = 0 :=
      countAllocas_eq_zero (fun I hI => hdefs I (List.mem_of_mem_filter hI))
    rw [countAllocas_append, countAllocas_append, countAllocas_append,
      hsub1, hsub2, hsub3]
    omega

/-- Witness for C9 on a concrete body with one pre-existing alloca, two live
values and one safepoint record. -/
theorem relocationViaAlloca_alloca_count_witness :
    countAllocas (relocationViaAlloca
        [⟨0, RKind.alloca⟩, ⟨1, RKind.callInst⟩, ⟨2, RKind.otherInst⟩]
        [⟨7, Ty.ptr 1, ValKind.argument⟩, ⟨8, Ty.ptr 1, ValKind.instruction⟩]
        [⟨[0], some 1⟩] (fun _ => 2) 10) =
      countAllocas [⟨0, RKind.alloca⟩, ⟨1, RKind.callInst⟩, ⟨2, RKind.otherInst⟩] :=
  relocationViaAlloca_alloca_count
    [⟨0, RKind.alloca⟩, ⟨1, RKind.callInst⟩, ⟨2, RKind.otherInst⟩]
    [⟨7, Ty.ptr 1, ValKind.argument⟩, ⟨8, Ty.ptr 1, ValKind.instruction⟩]
    [⟨[0], some 1⟩] (fun _ => 2) 10 (by decide)

end SafepointPlacement
